import Mathlib

/-
Verification of the collaborative-session core of the proof-smith-r repository.

The replicated document (Yjs `Y.Doc` with a `Y.Text` field and two `Y.Map`
fields), the admission-control handlers and the observer callbacks of
`src/unnamed/part_009`, the `syncScaffold` observer of `src/App.tsx`, and the
graph-merging functions of `src/services/gemini.ts` are shallowly embedded as
pure Lean functions over an explicit peer-replica state.
-/

namespace ProofSmith

/-- Application stages, from `src/types.ts` (`AppStage`), together with the
`VERIFYING` stage referenced by `src/unnamed/part_009`. `JOINING` is the gated
admission stage. -/
inductive AppStage where
  | NOTEBOOK
  | DESIGN
  | VALIDATE
  | PROVE
  | JOINING
  | VERIFYING
  deriving DecidableEq

/-- A causal-graph node, from `src/types.ts` (`CausalNode`): the identity,
label and kind fields that the collaboration and merge logic reads. -/
structure CausalNode where
  id : String
  label : String
  type : String
  deriving DecidableEq

/-- A causal-graph edge, from `src/types.ts` (`CausalEdge`). -/
structure CausalEdge where
  source : String
  target : String
  relationship : String
  deriving DecidableEq

/-- A causal-graph snapshot, from `src/types.ts` (`CausalGraphData`). -/
structure CausalGraphData where
  nodes : List CausalNode
  edges : List CausalEdge
  deriving DecidableEq

/-- An awareness (presence) user record, as set via
`provider.awareness.setLocalStateField('user', { id, name, color })` in
`src/unnamed/part_009`. -/
structure AwarenessUser where
  id : String
  name : String
  color : String
  deriving DecidableEq

/-- A roster entry computed by the awareness change handler of
`src/unnamed/part_009` (lines 79-87). -/
structure PeerInfo where
  id : String
  name : String
  color : String
  status : String
  deriving DecidableEq

/-- Lookup in a string-keyed map (`Y.Map.get` / JS `Map.get`), modelled as an
association list searched front to back. -/
def mapGet : List (String × String) → String → Option String
  | [], _ => none
  | (a, b) :: rest, k => if a = k then some b else mapGet rest k

/-- Update of a string-keyed map (`Y.Map.set` / JS `Map.set`): the key is
bound to the new value, any previous binding is dropped. -/
def mapSet (m : List (String × String)) (k v : String) : List (String × String) :=
  (k, v) :: m.filter (fun p => p.1 != k)

/-- `Y.Text.delete(start, len)` on the text's current string value. -/
def ytextDelete (s : String) (start len : Nat) : String :=
  ⟨s.data.take start ++ s.data.drop (start + len)⟩

/-- `Y.Text.insert(idx, t)` on the text's current string value. -/
def ytextInsert (s : String) (idx : Nat) (t : String) : String :=
  ⟨s.data.take idx ++ t.data ++ s.data.drop idx⟩

/-- The state of one peer's replica in `src/unnamed/part_009`: the three
replicated fields of the `Y.Doc` (`yInput`, the `data` entry of `yScaffold`,
and `yAccess`), and the local React view state that mirrors them.  For
`yScaffold`, `none` stands for an absent or `null` `data` entry (the code
treats the two alike: `yScaffold.get('data') || null`). -/
structure PeerState where
  yInput : String
  yScaffold : Option CausalGraphData
  yAccess : List (String × String)
  stage : AppStage
  inputText : String
  scaffold : Option CausalGraphData
  pendingRequests : List (String × String)
  peers : List PeerInfo
  isHost : Bool
  roomID : String
  urlHash : String
  deriving DecidableEq

/-- The initial React state of `src/unnamed/part_009` (lines 25-51): stage
`DESIGN`, empty text, no scaffold, fresh empty `Y.Doc`, with the page's URL
fragment `h`. -/
def initialPeerState (h : String) : PeerState :=
  { yInput := ""
    yScaffold := none
    yAccess := []
    stage := AppStage.DESIGN
    inputText := ""
    scaffold := none
    pendingRequests := []
    peers := []
    isHost := false
    roomID := ""
    urlHash := h }

/-- `checkAdmission` of `src/unnamed/part_009` (lines 98-106): if the local
peer's `accessControl` entry is `'allowed'`, a `JOINING` stage is promoted to
`DESIGN` and any other stage is kept; otherwise the stage is forced to
`JOINING`. -/
def checkAdmission (myID : String) (st : PeerState) : PeerState :=
  if mapGet st.yAccess myID = some "allowed" then
    { st with stage := if st.stage = AppStage.JOINING then AppStage.DESIGN else st.stage }
  else
    { st with stage := AppStage.JOINING }

/-- `handleAdmission` of `src/unnamed/part_009` (lines 129-138): on approval
the peer's `accessControl` entry is set to `'allowed'`; in both cases the
peer is removed from the local pending-request list. -/
def handleAdmission (peerID : String) (approve : Bool) (st : PeerState) : PeerState :=
  let st1 :=
    if approve then { st with yAccess := mapSet st.yAccess peerID "allowed" } else st
  { st1 with pendingRequests := st1.pendingRequests.filter (fun r => r.1 != peerID) }

/-- `handleInputChange` of `src/unnamed/part_009` (lines 148-156): the local
input state is set to `val`; if the replicated text differs from `val`, one
transaction deletes the whole range and inserts `val`. -/
def handleInputChange (val : String) (st : PeerState) : PeerState :=
  let st1 := { st with inputText := val }
  if st1.yInput ≠ val then
    { st1 with yInput := ytextInsert (ytextDelete st1.yInput 0 st1.yInput.length) 0 val }
  else st1

/-- The `yInput.observe` callback of `src/unnamed/part_009` (lines 116-121):
the replicated text is compared against the local input state and copied over
only when they differ. -/
def observeInput (st : PeerState) : PeerState :=
  if st.yInput ≠ st.inputText then { st with inputText := st.yInput } else st

/-- The `yScaffold.observe` callback of `src/unnamed/part_009` (lines
111-114): `setScaffold(yScaffold.get('data') || null)`. -/
def observeScaffold (st : PeerState) : PeerState :=
  { st with scaffold := st.yScaffold }

/-- `updateScaffold` of `src/unnamed/part_009` (lines 158-161): local
projection and replicated `data` entry are both set to `data`. -/
def updateScaffold (data : Option CausalGraphData) (st : PeerState) : PeerState :=
  { st with scaffold := data, yScaffold := data }

/-- `syncScaffold` of `src/App.tsx` (lines 992-995): the replicated `data`
entry is copied into the local projection only when it is non-null
(`if (data) setScaffold(data)`). -/
def syncScaffold (st : PeerState) : PeerState :=
  match st.yScaffold with
  | some data => { st with scaffold := some data }
  | none => st

/-- The pending-request computation of `src/unnamed/part_009` (lines 91-93):
awareness entries that carry a `user` whose id is not mapped to `'allowed'`
in `accessControl`, projected to `(id, name)`. -/
def computePendingRequests (yAccess : List (String × String))
    (states : List (Nat × Option AwarenessUser)) : List (String × String) :=
  states.filterMap (fun p =>
    match p.2 with
    | some u => if mapGet yAccess u.id ≠ some "allowed" then some (u.id, u.name) else none
    | none => none)

/-- One roster entry of the awareness handler of `src/unnamed/part_009`
(lines 79-85), with the defaults used when an entry has no `user` field. -/
def rosterEntry (yAccess : List (String × String)) (p : Nat × Option AwarenessUser) : PeerInfo :=
  match p.2 with
  | some u =>
      { id := u.id, name := u.name, color := u.color
        status := if mapGet yAccess u.id = some "allowed" then "allowed" else "pending" }
  | none =>
      { id := "client_" ++ toString p.1, name := "Unknown", color := "#94a3b8"
        status := "pending" }

/-- The awareness `change` handler of `src/unnamed/part_009` (lines 77-96):
the roster is recomputed from all states except the local peer's, and, only
when the local peer's own `accessControl` entry is `'allowed'`, the
pending-request list is recomputed. -/
def awarenessChange (myID : String) (states : List (Nat × Option AwarenessUser))
    (st : PeerState) : PeerState :=
  let st1 := { st with peers := (states.map (rosterEntry st.yAccess)).filter (fun p => p.id != myID) }
  if mapGet st1.yAccess myID = some "allowed" then
    { st1 with pendingRequests := computePendingRequests st1.yAccess states }
  else st1

/-- The room-initialisation effect of `src/unnamed/part_009` (lines 56-68)
followed by the immediate `checkAdmission()` call (line 109): an empty URL
fragment makes the peer the host, mints the token `freshToken`, writes it to
the fragment and self-admits; a non-empty fragment makes the peer a joiner. -/
def initRoom (myID freshToken : String) (st : PeerState) : PeerState :=
  let st1 :=
    if st.urlHash = "" then
      { st with urlHash := freshToken, roomID := freshToken, isHost := true
                yAccess := mapSet st.yAccess myID "allowed" }
    else
      { st with roomID := st.urlHash, isHost := false }
  checkAdmission myID st1

/-- The stages that the UI of `src/unnamed/part_009` ever passes to
`setStage` outside `checkAdmission`: navigation buttons and the analysis
handlers use only `DESIGN`, `VALIDATE`, `VERIFYING` and `PROVE` (lines 187,
192, 198, 207, 215, 309, 593, 614). -/
def uiStageTargets : List AppStage :=
  [AppStage.DESIGN, AppStage.VALIDATE, AppStage.VERIFYING, AppStage.PROVE]

/-- One event at a peer's replica in `src/unnamed/part_009`: a local handler
invocation, a remote delta merged into the `Y.Doc` (which fires the matching
observer synchronously, as Yjs observers fire on local and remote
transactions alike), or a UI navigation. Remote `accessControl` deltas carry
only `'allowed'` entries, since every write site (`yAccess.set`, lines 64 and
131) stores `'allowed'`. -/
inductive Event where
  | observeAccess : Event
  | remoteAllow : String → Event
  | admission : String → Bool → Event
  | inputChange : String → Event
  | obsInput : Event
  | remoteText : String → Event
  | setScaffold : Option CausalGraphData → Event
  | obsScaffold : Event
  | remoteScaffold : Option CausalGraphData → Event
  | awarenessTick : List (Nat × Option AwarenessUser) → Event

/-- The effect of one event on a peer's replica. Local mutations are composed
with the observer that Yjs fires for them: `admission _ true` fires the
`yAccess` observer (`checkAdmission`), `inputChange` fires the `yInput`
observer, `setScaffold` fires the `yScaffold` observer. -/
def step (myID : String) (st : PeerState) : Event → PeerState
  | Event.observeAccess => checkAdmission myID st
  | Event.remoteAllow pid =>
      checkAdmission myID { st with yAccess := mapSet st.yAccess pid "allowed" }
  | Event.admission pid approve =>
      let st1 := handleAdmission pid approve st
      if approve then checkAdmission myID st1 else st1
  | Event.inputChange v => observeInput (handleInputChange v st)
  | Event.obsInput => observeInput st
  | Event.remoteText v => observeInput { st with yInput := v }
  | Event.setScaffold d => observeScaffold (updateScaffold d st)
  | Event.obsScaffold => observeScaffold st
  | Event.remoteScaffold d => observeScaffold { st with yScaffold := d }
  | Event.awarenessTick states => awarenessChange myID states st

/-- A finite sequence of events applied to a peer's replica. -/
def runEvents (myID : String) (st : PeerState) (evs : List Event) : PeerState :=
  evs.foldl (step myID) st

/-! Embedding of the graph-merge layer of `src/services/gemini.ts`. The
non-deterministic fresh-id generation
(`merged_${Date.now()}_${Math.random()...}`) is modelled by an arbitrary
id supply `fresh : Nat → String` indexed by how many ids were drawn. -/

/-- The intermediate state of `mergeGraphs` while newGraph's nodes are being
processed: the growing `result.nodes`, the `idMap`, and the count of fresh
ids drawn so far. -/
structure MergeSt where
  nodes : List CausalNode
  idMap : List (String × String)
  counter : Nat

/-- JS `String.prototype.toLowerCase`, modelled characterwise. -/
def lowerStr (s : String) : String :=
  ⟨s.data.map Char.toLower⟩

/-- The `findNode` helper of `mergeGraphs` (`src/services/gemini.ts` line
14): first node of the evolving result whose label matches
case-insensitively. -/
def findNode (nodes : List CausalNode) (label : String) : Option CausalNode :=
  nodes.find? (fun n => lowerStr n.label == lowerStr label)

/-- Processing of one `newGraph` node by `mergeGraphs`
(`src/services/gemini.ts` lines 17-26): a label match maps the node's id to
the existing node's id; otherwise a fresh id is drawn, the id is mapped to
it, and the node is appended under the fresh id. -/
def processNode (fresh : Nat → String) (st : MergeSt) (n : CausalNode) : MergeSt :=
  match findNode st.nodes n.label with
  | some existing => { st with idMap := mapSet st.idMap n.id existing.id }
  | none =>
      let newId := fresh st.counter
      { nodes := st.nodes ++ [{ n with id := newId }]
        idMap := mapSet st.idMap n.id newId
        counter := st.counter + 1 }

/-- Processing of one `newGraph` edge by `mergeGraphs`
(`src/services/gemini.ts` lines 28-40): the edge is kept only when both
endpoints are in the id map and no edge with the same remapped endpoints is
already present. -/
def processEdge (idMap : List (String × String)) (edges : List CausalEdge)
    (e : CausalEdge) : List CausalEdge :=
  match mapGet idMap e.source, mapGet idMap e.target with
  | some s, some t =>
      if edges.any (fun ed => ed.source == s && ed.target == t) then edges
      else edges ++ [{ e with source := s, target := t }]
  | _, _ => edges

/-- The node-processing fold of `mergeGraphs` starting from `base`'s nodes
with an empty id map. -/
def mergeNodes (fresh : Nat → String) (base newGraph : CausalGraphData) : MergeSt :=
  newGraph.nodes.foldl (processNode fresh) { nodes := base.nodes, idMap := [], counter := 0 }

/-- `mergeGraphs` of `src/services/gemini.ts` (lines 9-44): base's nodes and
edges are copied, newGraph's nodes are merged by case-insensitive label with
id remapping, and newGraph's edges are remapped and appended when both
endpoints resolve and the remapped edge is not already present. -/
def mergeGraphs (fresh : Nat → String) (base newGraph : CausalGraphData) : CausalGraphData :=
  let afterNodes := mergeNodes fresh base newGraph
  { nodes := afterNodes.nodes
    edges := newGraph.edges.foldl (processEdge afterNodes.idMap) base.edges }

/-- `expandCausalNode` of `src/services/gemini.ts` (lines 123-173). The
Gemini request and the JSON parsing of its output are modelled by the oracle
`aiResult`: `none` when the request throws or its output fails to parse (the
`catch` path), `some parsed` when it yields a graph. -/
def expandCausalNode (fresh : Nat → String) (nodeId : String)
    (context : CausalGraphData) (aiResult : Option CausalGraphData) : CausalGraphData :=
  match context.nodes.find? (fun n => n.id == nodeId) with
  | none => context
  | some _ =>
      match aiResult with
      | none => context
      | some parsed => mergeGraphs fresh context parsed

/-- The replicated-document part of a peer's state: the shared text and the
shared graph snapshot. -/
def docOf (st : PeerState) : String × Option CausalGraphData :=
  (st.yInput, st.yScaffold)

/-! Basic lemmas about the map and text models. -/

theorem mapGet_filter_ne (m : List (String × String)) (k q : String) (hkq : k ≠ q) :
    mapGet (m.filter (fun p => p.1 != k)) q = mapGet m q := by
  induction m with
  | nil => rfl
  | cons p rest ih =>
      rw [List.filter_cons]
      by_cases hpk : p.1 = k
      · have hpq : p.1 ≠ q := by rw [hpk]; exact hkq
        simp [hpk, mapGet, hpq, ih, hkq]
      · simp [hpk, mapGet, ih]

theorem mapGet_mapSet (m : List (String × String)) (k v q : String) :
    mapGet (mapSet m k v) q = if k = q then some v else mapGet m q := by
  by_cases hkq : k = q
  · simp [mapSet, mapGet, hkq]
  · simp only [mapSet, mapGet, hkq, if_neg hkq, if_false]
    exact mapGet_filter_ne m k q hkq

theorem ytext_replace (s v : String) :
    ytextInsert (ytextDelete s 0 s.length) 0 v = v := by
  have h : ytextDelete s 0 s.length = String.mk [] := by
    unfold ytextDelete
    rw [Nat.zero_add]
    rw [show s.length = s.data.length from rfl]
    rw [List.drop_length, List.take_zero, List.nil_append]
  rw [h]
  unfold ytextInsert
  simp only [List.take_nil, List.drop_nil, List.nil_append, List.append_nil]

theorem handleInputChange_yInput (st : PeerState) (val : String) :
    (handleInputChange val st).yInput = val := by
  unfold handleInputChange
  by_cases h : st.yInput = val
  · simp [h]
  · simp [h, ytext_replace]

theorem handleInputChange_inputText (st : PeerState) (val : String) :
    (handleInputChange val st).inputText = val := by
  unfold handleInputChange
  by_cases h : st.yInput = val <;> simp [h]

theorem observeInput_yInput (s : PeerState) : (observeInput s).yInput = s.yInput := by
  unfold observeInput
  by_cases h : s.yInput = s.inputText <;> simp [h]

theorem observeInput_of_sync (s : PeerState) (h : s.yInput = s.inputText) :
    observeInput s = s := by
  unfold observeInput
  simp [h]

theorem handleInputChange_noop (s : PeerState) (v : String) (h1 : s.yInput = v)
    (h2 : s.inputText = v) : handleInputChange v s = s := by
  subst h1
  obtain ⟨yi, ys, ya, stg, it, sc, pr, pe, ih, ri, uh⟩ := s
  unfold handleInputChange
  simp_all

theorem syncScaffold_idem (st : PeerState) :
    syncScaffold (syncScaffold st) = syncScaffold st := by
  rcases h : st.yScaffold with _ | d <;> simp [syncScaffold, h]

/-- C4: for every current replicated text and every `newFullText`, the local
text edit of `src/unnamed/part_009` (`handleInputChange`, the spec's
`applyLocalTextEdit`) deletes the full existing range and inserts the new
text in one transaction, after which the replicated text field equals
`newFullText` exactly; the operation is total, with no error path. -/
theorem applyLocalTextEdit_postcondition (st : PeerState) (val : String) :
    (handleInputChange val st).yInput = val
      ∧ (handleInputChange val st).inputText = val
      ∧ ∀ t : String, ytextInsert (ytextDelete t 0 t.length) 0 val = val :=
  ⟨handleInputChange_yInput st val, handleInputChange_inputText st val,
    fun t => ytext_replace t val⟩

/-- C3: self-echo suppression. After a local write of `v` the peer's own
observer notification is a no-op (the incoming replicated text equals the
current local text, so the guarded comparison blocks a further update), the
observer never writes the replicated text, and re-triggering the same write
is the identity: one local write yields exactly one settled update cycle and
no infinite mutation chain. -/
theorem selfEcho_suppression (st : PeerState) (v : String) :
    ((handleInputChange v st).yInput = v ∧ (handleInputChange v st).inputText = v)
      ∧ observeInput (handleInputChange v st) = handleInputChange v st
      ∧ (∀ s : PeerState, (observeInput s).yInput = s.yInput)
      ∧ handleInputChange v (observeInput (handleInputChange v st))
          = observeInput (handleInputChange v st) := by
  have h1 := handleInputChange_yInput st v
  have h2 := handleInputChange_inputText st v
  have hobs : observeInput (handleInputChange v st) = handleInputChange v st :=
    observeInput_of_sync _ (by rw [h1, h2])
  refine ⟨⟨h1, h2⟩, hobs, observeInput_yInput, ?_⟩
  rw [hobs]
  exact handleInputChange_noop _ v h1 h2

/-- C8: soft (UI-only) access control. The shared-document mutations of
`src/unnamed/part_009` (`handleInputChange` and `updateScaffold`) neither
read nor depend on the `accessControl` map or the admission stage: for any
admission state of the caller, the same mutation on the same document yields
the same resulting document. -/
theorem mutations_ignore_accessControl (st : PeerState) (v : String)
    (d : Option CausalGraphData) (am : List (String × String)) (stg : AppStage) :
    docOf (handleInputChange v { st with yAccess := am, stage := stg })
        = docOf (handleInputChange v st)
      ∧ docOf (updateScaffold d { st with yAccess := am, stage := stg })
        = docOf (updateScaffold d st) := by
  constructor
  · unfold handleInputChange docOf
    by_cases h : st.yInput = v <;> simp [h]
  · unfold updateScaffold docOf
    simp

/-- A one-node snapshot used in concrete instances. -/
def sampleGraph : CausalGraphData :=
  { nodes := [{ id := "n1", label := "X", type := "variable" }], edges := [] }

/-- A peer replica whose local projection holds `sampleGraph` while the
replicated `data` entry has just been set to null by some peer. -/
def nullWritePeer : PeerState :=
  { initialPeerState "room1" with scaffold := some sampleGraph, yScaffold := none }

/-- C5 counterexample: on the `syncScaffold` observer of `src/App.tsx`, a
`setGraphSnapshot(null)` write does not make the local projection equal the
written value: at `nullWritePeer` the replicated entry is null but after the
observer runs the projection is still the old non-null snapshot. -/
theorem syncScaffold_null_counterexample :
    nullWritePeer.yScaffold = none ∧ (syncScaffold nullWritePeer).scaffold ≠ none := by
  decide

/-- C5 amended: for every snapshot value `d` including null, the writer-side
`updateScaffold` followed by the `yScaffold` observer of
`src/unnamed/part_009` leaves every peer's projection equal to `d`, and
re-running that observer is an idempotent no-op; the `syncScaffold` observer
of `src/App.tsx` equally projects every non-null snapshot, but on a null
snapshot it leaves the previous projection unchanged. -/
theorem graph_observer_projection (st : PeerState) (d : Option CausalGraphData)
    (g : CausalGraphData) :
    (observeScaffold (updateScaffold d st)).scaffold = d
      ∧ (observeScaffold (updateScaffold d st)).yScaffold = d
      ∧ observeScaffold (observeScaffold st) = observeScaffold st
      ∧ syncScaffold (syncScaffold st) = syncScaffold st
      ∧ (syncScaffold { st with yScaffold := some g }).scaffold = some g
      ∧ (syncScaffold { st with yScaffold := none }).scaffold = st.scaffold := by
  exact ⟨rfl, rfl, rfl, syncScaffold_idem st, rfl, rfl⟩

/-- C2: session bootstrap. With an empty URL fragment the peer mints a token,
writes it back to the fragment, marks itself host, self-admits
(`accessControl[myID] = "allowed"`), and its stage is immediately `DESIGN`
(active, not `JOINING`); with a non-empty fragment it writes nothing to
`accessControl` and its stage becomes `JOINING`. -/
theorem session_bootstrap (myID token h : String) (hne : h ≠ "") :
    ((initRoom myID token (initialPeerState "")).urlHash = token
      ∧ (initRoom myID token (initialPeerState "")).roomID = token
      ∧ (initRoom myID token (initialPeerState "")).isHost = true
      ∧ mapGet (initRoom myID token (initialPeerState "")).yAccess myID = some "allowed"
      ∧ (initRoom myID token (initialPeerState "")).stage = AppStage.DESIGN)
    ∧ ((initRoom myID token (initialPeerState h)).yAccess = []
      ∧ (initRoom myID token (initialPeerState h)).isHost = false
      ∧ (initRoom myID token (initialPeerState h)).roomID = h
      ∧ (initRoom myID token (initialPeerState h)).urlHash = h
      ∧ (initRoom myID token (initialPeerState h)).stage = AppStage.JOINING) := by
  constructor
  · simp [initRoom, initialPeerState, checkAdmission, mapSet, mapGet]
  · simp [initRoom, initialPeerState, checkAdmission, mapGet, hne]

theorem session_bootstrap_witness :
    ((initRoom "p1" "abc123" (initialPeerState "")).urlHash = "abc123"
      ∧ (initRoom "p1" "abc123" (initialPeerState "")).roomID = "abc123"
      ∧ (initRoom "p1" "abc123" (initialPeerState "")).isHost = true
      ∧ mapGet (initRoom "p1" "abc123" (initialPeerState "")).yAccess "p1" = some "allowed"
      ∧ (initRoom "p1" "abc123" (initialPeerState "")).stage = AppStage.DESIGN)
    ∧ ((initRoom "p1" "abc123" (initialPeerState "room42")).yAccess = []
      ∧ (initRoom "p1" "abc123" (initialPeerState "room42")).isHost = false
      ∧ (initRoom "p1" "abc123" (initialPeerState "room42")).roomID = "room42"
      ∧ (initRoom "p1" "abc123" (initialPeerState "room42")).urlHash = "room42"
      ∧ (initRoom "p1" "abc123" (initialPeerState "room42")).stage = AppStage.JOINING) :=
  session_bootstrap "p1" "abc123" "room42" (by decide)

/-- C6: pending-request computation. An admitted peer's awareness handler
recomputes the pending-request list, which contains exactly the `(id, name)`
projections of live awareness entries carrying a user whose id is not mapped
to `'allowed'` in `accessControl`; a peer that is not itself admitted leaves
its pending-request list untouched. -/
theorem pendingRequests_spec (myID : String)
    (states : List (Nat × Option AwarenessUser)) (stA stG : PeerState)
    (hA : mapGet stA.yAccess myID = some "allowed")
    (hG : mapGet stG.yAccess myID ≠ some "allowed") :
    (awarenessChange myID states stA).pendingRequests
        = computePendingRequests stA.yAccess states
      ∧ (awarenessChange myID states stG).pendingRequests = stG.pendingRequests
      ∧ ∀ x : String × String,
          x ∈ computePendingRequests stA.yAccess states
            ↔ ∃ c : Nat, ∃ u : AwarenessUser, (c, some u) ∈ states
                ∧ mapGet stA.yAccess u.id ≠ some "allowed" ∧ x = (u.id, u.name) := by
  refine ⟨by simp [awarenessChange, hA], by simp [awarenessChange, hG], ?_⟩
  intro x
  unfold computePendingRequests
  rw [List.mem_filterMap]
  constructor
  · rintro ⟨⟨c, ou⟩, hmem, hf⟩
    cases ou with
    | none => simp at hf
    | some u =>
        by_cases hu : mapGet stA.yAccess u.id = some "allowed"
        · simp [hu] at hf
        · simp only [hu, ne_eq, not_false_eq_true, if_true, if_pos,
            Option.some.injEq] at hf
          exact ⟨c, u, hmem, hu, hf.symm⟩
  · rintro ⟨c, u, hmem, hu, rfl⟩
    exact ⟨(c, some u), hmem, by simp [hu]⟩

theorem pendingRequests_witness :
    (awarenessChange "p1" [(7, some ⟨"p2", "B", "#fff"⟩)]
        { initialPeerState "r" with yAccess := [("p1", "allowed")] }).pendingRequests
      = [("p2", "B")] := by
  have h := pendingRequests_spec "p1" [(7, some ⟨"p2", "B", "#fff"⟩)]
    { initialPeerState "r" with yAccess := [("p1", "allowed")] }
    (initialPeerState "r") (by decide) (by decide)
  rw [h.1]
  decide

/-- C7: denial frame effect. `handleAdmission` with `approve = false` changes
only the local transient pending-request list (removing that id) and writes
nothing replicated, so on the next awareness tick the still-present, still
unadmitted peer's request reappears; with `approve = true` it writes exactly
`accessControl[peerId] = "allowed"` and nothing else replicated. -/
theorem handleAdmission_frame (myID pid : String) (st : PeerState) :
    ((handleAdmission pid false st).yAccess = st.yAccess
      ∧ (handleAdmission pid false st).yInput = st.yInput
      ∧ (handleAdmission pid false st).yScaffold = st.yScaffold
      ∧ (handleAdmission pid false st).stage = st.stage
      ∧ (handleAdmission pid false st).pendingRequests
          = st.pendingRequests.filter (fun r => r.1 != pid))
    ∧ ((handleAdmission pid true st).yInput = st.yInput
      ∧ (handleAdmission pid true st).yScaffold = st.yScaffold
      ∧ (handleAdmission pid true st).stage = st.stage
      ∧ ∀ k : String, mapGet (handleAdmission pid true st).yAccess k
          = if pid = k then some "allowed" else mapGet st.yAccess k)
    ∧ (∀ states : List (Nat × Option AwarenessUser), ∀ c : Nat, ∀ u : AwarenessUser,
        (c, some u) ∈ states → u.id = pid →
        mapGet st.yAccess pid ≠ some "allowed" →
        mapGet st.yAccess myID = some "allowed" →
        (pid, u.name) ∈ (awarenessChange myID states
          (handleAdmission pid false st)).pendingRequests) := by
  refine ⟨⟨rfl, rfl, rfl, rfl, rfl⟩,
    ⟨rfl, rfl, rfl, fun k => mapGet_mapSet st.yAccess pid "allowed" k⟩, ?_⟩
  intro states c u hmem hid hpid hmy
  have hacc : (handleAdmission pid false st).yAccess = st.yAccess := rfl
  have hpend : (awarenessChange myID states (handleAdmission pid false st)).pendingRequests
      = computePendingRequests st.yAccess states := by
    simp [awarenessChange, hacc, hmy]
  rw [hpend]
  unfold computePendingRequests
  rw [List.mem_filterMap]
  refine ⟨(c, some u), hmem, ?_⟩
  show (if mapGet st.yAccess u.id ≠ some "allowed" then some (u.id, u.name) else none)
      = some (pid, u.name)
  rw [hid]
  simp [hpid]

theorem handleAdmission_frame_witness :
    ("p2", "B") ∈ (awarenessChange "p1" [(7, some ⟨"p2", "B", "#fff"⟩)]
      (handleAdmission "p2" false
        { initialPeerState "r" with yAccess := [("p1", "allowed")]
                                    pendingRequests := [("p2", "B")] })).pendingRequests := by
  have h := handleAdmission_frame "p1" "p2"
    { initialPeerState "r" with yAccess := [("p1", "allowed")]
                                pendingRequests := [("p2", "B")] }
  exact h.2.2 [(7, some ⟨"p2", "B", "#fff"⟩)] 7 ⟨"p2", "B", "#fff"⟩
    (by simp) rfl (by decide) (by decide)

/-! Invariant machinery for admission monotonicity (C1). -/

/-- The peer's own `accessControl` entry is `'allowed'`. -/
def admitted (myID : String) (st : PeerState) : Prop :=
  mapGet st.yAccess myID = some "allowed"

theorem checkAdmission_yAccess (myID : String) (st : PeerState) :
    (checkAdmission myID st).yAccess = st.yAccess := by
  unfold checkAdmission
  split <;> rfl

theorem checkAdmission_stage_admitted (myID : String) (st : PeerState)
    (h : admitted myID st) :
    (checkAdmission myID st).stage ≠ AppStage.JOINING := by
  unfold checkAdmission
  rw [if_pos (show mapGet st.yAccess myID = some "allowed" from h)]
  by_cases hs : st.stage = AppStage.JOINING <;> simp [hs]

theorem admitted_mapSet (myID pid : String) (m : List (String × String))
    (h : mapGet m myID = some "allowed") :
    mapGet (mapSet m pid "allowed") myID = some "allowed" := by
  rw [mapGet_mapSet]
  by_cases hp : pid = myID <;> simp [hp, h]

theorem handleAdmission_yAccess_admitted (myID pid : String) (a : Bool)
    (st : PeerState) (h : admitted myID st) :
    admitted myID (handleAdmission pid a st) := by
  cases a with
  | false => exact h
  | true =>
      show mapGet (mapSet st.yAccess pid "allowed") myID = some "allowed"
      exact admitted_mapSet myID pid st.yAccess h

theorem handleAdmission_stage (pid : String) (a : Bool) (st : PeerState) :
    (handleAdmission pid a st).stage = st.stage := by
  cases a <;> rfl

theorem handleInputChange_frame (v : String) (s : PeerState) :
    (handleInputChange v s).yAccess = s.yAccess
      ∧ (handleInputChange v s).stage = s.stage := by
  by_cases h : s.yInput = v <;> simp [handleInputChange, h]

theorem observeInput_frame (s : PeerState) :
    (observeInput s).yAccess = s.yAccess ∧ (observeInput s).stage = s.stage := by
  unfold observeInput
  split <;> exact ⟨rfl, rfl⟩

theorem awarenessChange_frame (myID : String)
    (states : List (Nat × Option AwarenessUser)) (s : PeerState) :
    (awarenessChange myID states s).yAccess = s.yAccess
      ∧ (awarenessChange myID states s).stage = s.stage := by
  unfold awarenessChange
  by_cases h : mapGet s.yAccess myID = some "allowed" <;> simp [h]

theorem step_preserves (myID : String) (st : PeerState) (e : Event)
    (h : admitted myID st) :
    admitted myID (step myID st e)
      ∧ (st.stage ≠ AppStage.JOINING → (step myID st e).stage ≠ AppStage.JOINING) := by
  cases e with
  | observeAccess =>
      refine ⟨?_, fun _ => checkAdmission_stage_admitted myID st h⟩
      show mapGet (checkAdmission myID st).yAccess myID = some "allowed"
      rw [checkAdmission_yAccess]
      exact h
  | remoteAllow pid =>
      have h2 : admitted myID { st with yAccess := mapSet st.yAccess pid "allowed" } :=
        admitted_mapSet myID pid st.yAccess h
      refine ⟨?_, fun _ => checkAdmission_stage_admitted myID _ h2⟩
      show mapGet (checkAdmission myID _).yAccess myID = some "allowed"
      rw [checkAdmission_yAccess]
      exact h2
  | admission pid a =>
      have h1 : admitted myID (handleAdmission pid a st) :=
        handleAdmission_yAccess_admitted myID pid a st h
      cases a with
      | false => exact ⟨h1, fun hs => hs⟩
      | true =>
          refine ⟨?_, fun _ => ?_⟩
          · show mapGet (checkAdmission myID _).yAccess myID = some "allowed"
            rw [checkAdmission_yAccess]
            exact h1
          · exact checkAdmission_stage_admitted myID _ h1
  | inputChange v =>
      have hf1 := handleInputChange_frame v st
      have hf2 := observeInput_frame (handleInputChange v st)
      refine ⟨?_, fun hs => ?_⟩
      · show mapGet (observeInput (handleInputChange v st)).yAccess myID = some "allowed"
        rw [hf2.1, hf1.1]
        exact h
      · show (observeInput (handleInputChange v st)).stage ≠ AppStage.JOINING
        rw [hf2.2, hf1.2]
        exact hs
  | obsInput =>
      have hf := observeInput_frame st
      refine ⟨?_, fun hs => ?_⟩
      · show mapGet (observeInput st).yAccess myID = some "allowed"
        rw [hf.1]
        exact h
      · show (observeInput st).stage ≠ AppStage.JOINING
        rw [hf.2]
        exact hs
  | remoteText v =>
      have hf := observeInput_frame { st with yInput := v }
      refine ⟨?_, fun hs => ?_⟩
      · show mapGet (observeInput { st with yInput := v }).yAccess myID = some "allowed"
        rw [hf.1]
        exact h
      · show (observeInput { st with yInput := v }).stage ≠ AppStage.JOINING
        rw [hf.2]
        exact hs
  | setScaffold d => exact ⟨h, fun hs => hs⟩
  | obsScaffold => exact ⟨h, fun hs => hs⟩
  | remoteScaffold d => exact ⟨h, fun hs => hs⟩
  | awarenessTick states =>
      have hf := awarenessChange_frame myID states st
      refine ⟨?_, fun hs => ?_⟩
      · show mapGet (awarenessChange myID states st).yAccess myID = some "allowed"
        rw [hf.1]
        exact h
      · show (awarenessChange myID states st).stage ≠ AppStage.JOINING
        rw [hf.2]
        exact hs

theorem runEvents_preserves (myID : String) (st : PeerState) (evs : List Event)
    (h : admitted myID st) :
    admitted myID (runEvents myID st evs)
      ∧ (st.stage ≠ AppStage.JOINING →
          (runEvents myID st evs).stage ≠ AppStage.JOINING) := by
  induction evs generalizing st with
  | nil => exact ⟨h, fun hs => hs⟩
  | cons e rest ih =>
      have h1 := step_preserves myID st e h
      have h2 := ih (step myID st e) h1.1
      exact ⟨h2.1, fun hs => h2.2 (h1.2 hs)⟩

/-- C1: admission monotonicity. Once a peer's own `accessControl` entry is
`'allowed'` at its replica, any finite sequence of further events (observer
ticks, remote deltas, admissions, text and graph mutations, awareness
updates, navigation) keeps the entry `'allowed'`, and the peer's stage, once
out of the gated `JOINING` state, never returns to it. -/
theorem admission_monotonicity (myID : String) (st : PeerState) (evs : List Event)
    (h : mapGet st.yAccess myID = some "allowed") :
    mapGet (runEvents myID st evs).yAccess myID = some "allowed"
      ∧ (st.stage ≠ AppStage.JOINING →
          (runEvents myID st evs).stage ≠ AppStage.JOINING) :=
  runEvents_preserves myID st evs h

/-- A concrete admitted peer used to instantiate C1. -/
def demoPeer : PeerState :=
  { initialPeerState "r" with yAccess := [("p1", "allowed")], stage := AppStage.DESIGN }

/-- A concrete event sequence touching every replicated field. -/
def demoEvents : List Event :=
  [Event.remoteAllow "p2", Event.inputChange "hi",
    Event.awarenessTick [(1, some ⟨"p2", "B", "#fff"⟩)],
    Event.admission "p3" true, Event.setScaffold (some sampleGraph),
    Event.remoteText "bye", Event.remoteScaffold none, Event.observeAccess]

theorem admission_monotonicity_witness :
    mapGet (runEvents "p1" demoPeer demoEvents).yAccess "p1" = some "allowed"
      ∧ (runEvents "p1" demoPeer demoEvents).stage ≠ AppStage.JOINING := by
  have h := admission_monotonicity "p1" demoPeer demoEvents (by decide)
  exact ⟨h.1, h.2 (by decide)⟩

/-- C9: `expandCausalNode` fallback. When `nodeId` matches no node of the
context, the context is returned unchanged regardless of the AI oracle; when
the AI call fails or its output is unparseable (oracle `none`), the context
is returned unchanged; the function is total, so no call throws. -/
theorem expandCausalNode_fallback (fresh : Nat → String) (nodeId : String)
    (context : CausalGraphData) (aiResult : Option CausalGraphData)
    (hno : ∀ n ∈ context.nodes, n.id ≠ nodeId) :
    expandCausalNode fresh nodeId context aiResult = context
      ∧ ∀ nodeId2 : String, ∀ ctx : CausalGraphData,
          expandCausalNode fresh nodeId2 ctx none = ctx := by
  constructor
  · unfold expandCausalNode
    have hfind : context.nodes.find? (fun n => n.id == nodeId) = none := by
      rw [List.find?_eq_none]
      intro n hn
      simp [hno n hn]
    rw [hfind]
  · intro nodeId2 ctx
    rcases hf : ctx.nodes.find? (fun n => n.id == nodeId2) with _ | n <;>
      simp [expandCausalNode, hf]

theorem expandCausalNode_fallback_witness :
    expandCausalNode (fun k => "m" ++ toString k) "zzz" sampleGraph
        (some sampleGraph) = sampleGraph
      ∧ expandCausalNode (fun k => "m" ++ toString k) "n1" sampleGraph none
        = sampleGraph := by
  have h := expandCausalNode_fallback (fun k => "m" ++ toString k) "zzz"
    sampleGraph (some sampleGraph) (by decide)
  exact ⟨h.1, h.2 "n1" sampleGraph⟩

/-! Lemmas about the `mergeGraphs` node fold (C10). -/

/-- Case-insensitive label match, as `mergeGraphs` compares labels. -/
def labelMatches (a b : String) : Bool :=
  lowerStr a == lowerStr b

theorem find?_mem_prefix {α : Type} (p : α → Bool) (l1 l2 : List α)
    (h : ∃ x ∈ l1, p x) :
    ∃ y, (l1 ++ l2).find? p = some y ∧ y ∈ l1 ∧ p y := by
  induction l1 with
  | nil =>
      rcases h with ⟨x, hx, _⟩
      cases hx
  | cons a t ih =>
      by_cases hp : p a
      · exact ⟨a, by simp [List.find?_cons_of_pos _ hp], List.mem_cons_self a t, hp⟩
      · rcases h with ⟨x, hx, hpx⟩
        rcases List.mem_cons.mp hx with rfl | hxt
        · exact absurd hpx (by simpa using hp)
        · obtain ⟨y, hy1, hy2, hy3⟩ := ih ⟨x, hxt, hpx⟩
          refine ⟨y, ?_, List.mem_cons_of_mem a hy2, hy3⟩
          rw [List.cons_append, List.find?_cons_of_neg _ hp]
          exact hy1

theorem processNode_nodes_prefix (fresh : Nat → String) (st : MergeSt) (n : CausalNode) :
    ∃ suf, (processNode fresh st n).nodes = st.nodes ++ suf := by
  unfold processNode
  rcases h : findNode st.nodes n.label with _ | e
  · exact ⟨[{ n with id := fresh st.counter }], rfl⟩
  · exact ⟨[], by simp⟩

theorem foldl_processNode_nodes_prefix (fresh : Nat → String) (l : List CausalNode)
    (st : MergeSt) :
    ∃ suf, (l.foldl (processNode fresh) st).nodes = st.nodes ++ suf := by
  induction l generalizing st with
  | nil => exact ⟨[], (List.append_nil _).symm⟩
  | cons n rest ih =>
      obtain ⟨s1, h1⟩ := processNode_nodes_prefix fresh st n
      obtain ⟨s2, h2⟩ := ih (processNode fresh st n)
      exact ⟨s1 ++ s2, by rw [List.foldl_cons, h2, h1, List.append_assoc]⟩

/-- Every value of the evolving id map is the id of some node of the evolving
result. -/
def goodMap (st : MergeSt) : Prop :=
  ∀ k v : String, mapGet st.idMap k = some v → ∃ r ∈ st.nodes, r.id = v

theorem processNode_goodMap (fresh : Nat → String) (st : MergeSt) (n : CausalNode)
    (h : goodMap st) : goodMap (processNode fresh st n) := by
  intro k v hkv
  unfold processNode at hkv
  rcases hfind : findNode st.nodes n.label with _ | e
  · have hnodes : (processNode fresh st n).nodes
        = st.nodes ++ [{ n with id := fresh st.counter }] := by
      unfold processNode
      rw [hfind]
    rw [hfind] at hkv
    simp only at hkv
    rw [mapGet_mapSet] at hkv
    rw [hnodes]
    by_cases hk : n.id = k
    · rw [if_pos hk] at hkv
      refine ⟨{ n with id := fresh st.counter },
        List.mem_append_right _ (List.mem_singleton.mpr rfl), ?_⟩
      exact Option.some.inj hkv
    · rw [if_neg hk] at hkv
      obtain ⟨r, hr, hrid⟩ := h k v hkv
      exact ⟨r, List.mem_append_left _ hr, hrid⟩
  · have hnodes : (processNode fresh st n).nodes = st.nodes := by
      unfold processNode
      rw [hfind]
    rw [hfind] at hkv
    simp only at hkv
    rw [mapGet_mapSet] at hkv
    rw [hnodes]
    by_cases hk : n.id = k
    · rw [if_pos hk] at hkv
      have he : e ∈ st.nodes := List.mem_of_find?_eq_some hfind
      exact ⟨e, he, Option.some.inj hkv⟩
    · rw [if_neg hk] at hkv
      exact h k v hkv

theorem foldl_processNode_goodMap (fresh : Nat → String) (l : List CausalNode)
    (st : MergeSt) (h : goodMap st) : goodMap (l.foldl (processNode fresh) st) := by
  induction l generalizing st with
  | nil => exact h
  | cons n rest ih => exact ih (processNode fresh st n) (processNode_goodMap fresh st n h)

theorem processNode_idMap_get (fresh : Nat → String) (st : MergeSt) (n : CausalNode)
    (k : String) (hk : n.id ≠ k) :
    mapGet (processNode fresh st n).idMap k = mapGet st.idMap k := by
  unfold processNode
  rcases hfind : findNode st.nodes n.label with _ | e <;>
    simp only [mapGet_mapSet, if_neg hk]

theorem foldl_processNode_idMap_pres (fresh : Nat → String) (l : List CausalNode)
    (st : MergeSt) (k : String) (hk : ∀ n ∈ l, n.id ≠ k) :
    mapGet ((l.foldl (processNode fresh) st).idMap) k = mapGet st.idMap k := by
  induction l generalizing st with
  | nil => rfl
  | cons n rest ih =>
      rw [List.foldl_cons, ih (processNode fresh st n) (fun m hm => hk m (List.mem_cons_of_mem n hm))]
      exact processNode_idMap_get fresh st n k (hk n (List.mem_cons_self n rest))

theorem foldl_processNode_idMap_keys (fresh : Nat → String) (l : List CausalNode)
    (st : MergeSt) (k : String)
    (h : mapGet ((l.foldl (processNode fresh) st).idMap) k ≠ none) :
    (∃ n ∈ l, n.id = k) ∨ mapGet st.idMap k ≠ none := by
  induction l generalizing st with
  | nil => exact Or.inr h
  | cons n rest ih =>
      rcases ih (processNode fresh st n) h with hl | hr
      · obtain ⟨m, hm, hmk⟩ := hl
        exact Or.inl ⟨m, List.mem_cons_of_mem n hm, hmk⟩
      · by_cases hk : n.id = k
        · exact Or.inl ⟨n, List.mem_cons_self n rest, hk⟩
        · rw [processNode_idMap_get fresh st n k hk] at hr
          exact Or.inr hr

theorem foldl_processNode_label_match (fresh : Nat → String) (base0 : List CausalNode)
    (l : List CausalNode) (st : MergeSt) (n : CausalNode)
    (hmem : n ∈ l) (hnodup : (l.map (fun x => x.id)).Nodup)
    (hpre : ∃ suf0, st.nodes = base0 ++ suf0)
    (hbmatch : ∃ b ∈ base0, labelMatches b.label n.label) :
    ∃ r ∈ base0, labelMatches r.label n.label
      ∧ mapGet ((l.foldl (processNode fresh) st).idMap) n.id = some r.id := by
  induction l generalizing st with
  | nil => cases hmem
  | cons m rest ih =>
      rw [List.map_cons, List.nodup_cons] at hnodup
      rcases List.mem_cons.mp hmem with rfl | hmem2
      · obtain ⟨suf0, hsuf⟩ := hpre
        obtain ⟨y, hy1, hy2, hy3⟩ :=
          find?_mem_prefix (fun x => lowerStr x.label == lowerStr n.label) base0 suf0
            (by
              obtain ⟨b, hb, hbm⟩ := hbmatch
              exact ⟨b, hb, hbm⟩)
        have hfind : findNode st.nodes n.label = some y := by
          unfold findNode
          rw [hsuf]
          exact hy1
        have hrest : ∀ x ∈ rest, x.id ≠ n.id := by
          intro x hx hxe
          exact hnodup.1 (List.mem_map.mpr ⟨x, hx, hxe⟩)
        refine ⟨y, hy2, hy3, ?_⟩
        rw [List.foldl_cons,
          foldl_processNode_idMap_pres fresh rest (processNode fresh st n) n.id hrest]
        unfold processNode
        rw [hfind]
        simp [mapGet_mapSet]
      · obtain ⟨suf0, hsuf⟩ := hpre
        obtain ⟨s1, hs1⟩ := processNode_nodes_prefix fresh st m
        refine ih (processNode fresh st m) hmem2 hnodup.2 ⟨suf0 ++ s1, ?_⟩
        rw [hs1, hsuf, List.append_assoc]

theorem foldl_processNode_new_nodes (fresh : Nat → String) (base0 : List CausalNode)
    (l : List CausalNode) (st : MergeSt)
    (hpre : ∃ suf0, st.nodes = base0 ++ suf0)
    (hq : ∀ r ∈ st.nodes, r ∈ base0 ∨ ∀ b ∈ base0, ¬ labelMatches b.label r.label) :
    ∀ r ∈ (l.foldl (processNode fresh) st).nodes,
      r ∈ base0 ∨ ∀ b ∈ base0, ¬ labelMatches b.label r.label := by
  induction l generalizing st with
  | nil => exact hq
  | cons m rest ih =>
      rw [List.foldl_cons]
      obtain ⟨suf0, hsuf⟩ := hpre
      obtain ⟨s1, hs1⟩ := processNode_nodes_prefix fresh st m
      refine ih (processNode fresh st m)
        ⟨suf0 ++ s1, by rw [hs1, hsuf, List.append_assoc]⟩ ?_
      intro r hr
      unfold processNode at hr
      rcases hfind : findNode st.nodes m.label with _ | e
      · rw [hfind] at hr
        simp only at hr
        rcases List.mem_append.mp hr with hrold | hrnew
        · exact hq r hrold
        · have hrval : r = { m with id := fresh st.counter } :=
            List.mem_singleton.mp hrnew

          refine Or.inr ?_
          intro b hb hbm
          have hnone := List.find?_eq_none.mp hfind b (by rw [hsuf]; exact List.mem_append_left _ hb)
          apply hnone
          have : r.label = m.label := by rw [hrval]
          rw [this] at hbm
          exact hbm
      · rw [hfind] at hr
        simp only at hr
        exact hq r hr

theorem processEdge_sub (idMap : List (String × String)) (acc : List CausalEdge)
    (e : CausalEdge) (x : CausalEdge) (hx : x ∈ acc) : x ∈ processEdge idMap acc e := by
  unfold processEdge
  rcases hs : mapGet idMap e.source with _ | s
  · exact hx
  · rcases ht : mapGet idMap e.target with _ | t
    · exact hx
    · by_cases hdup : acc.any (fun ed => ed.source == s && ed.target == t)
      · simpa [hdup] using hx
      · simp only [hdup, if_false, ite_false, Bool.false_eq_true, if_neg]
        exact List.mem_append_left _ hx

theorem foldl_processEdge_sub (idMap : List (String × String)) (es : List CausalEdge)
    (acc : List CausalEdge) (x : CausalEdge) (hx : x ∈ acc) :
    x ∈ es.foldl (processEdge idMap) acc := by
  induction es generalizing acc with
  | nil => exact hx
  | cons e rest ih => exact ih (processEdge idMap acc e) (processEdge_sub idMap acc e x hx)

theorem processEdge_char (idMap : List (String × String)) (acc : List CausalEdge)
    (e : CausalEdge) (x : CausalEdge) (hx : x ∈ processEdge idMap acc e) :
    x ∈ acc ∨ ∃ s t : String, mapGet idMap e.source = some s
      ∧ mapGet idMap e.target = some t ∧ x = { e with source := s, target := t } := by
  unfold processEdge at hx
  rcases hs : mapGet idMap e.source with _ | s
  · rw [hs] at hx
    exact Or.inl hx
  · rcases ht : mapGet idMap e.target with _ | t
    · rw [hs, ht] at hx
      exact Or.inl hx
    · rw [hs, ht] at hx
      simp only at hx
      by_cases hdup : acc.any (fun ed => ed.source == s && ed.target == t)
      · rw [if_pos hdup] at hx
        exact Or.inl hx
      · rw [if_neg hdup] at hx
        rcases List.mem_append.mp hx with hold | hnew
        · exact Or.inl hold
        · exact Or.inr ⟨s, t, rfl, rfl, List.mem_singleton.mp hnew⟩

theorem foldl_processEdge_char (idMap : List (String × String)) (es : List CausalEdge)
    (acc : List CausalEdge) (x : CausalEdge)
    (hx : x ∈ es.foldl (processEdge idMap) acc) :
    x ∈ acc ∨ ∃ e ∈ es, ∃ s t : String, mapGet idMap e.source = some s
      ∧ mapGet idMap e.target = some t ∧ x = { e with source := s, target := t } := by
  induction es generalizing acc with
  | nil => exact Or.inl hx
  | cons e rest ih =>
      rcases ih (processEdge idMap acc e) hx with hacc | hrest
      · rcases processEdge_char idMap acc e x hacc with h1 | ⟨s, t, h2⟩
        · exact Or.inl h1
        · exact Or.inr ⟨e, List.mem_cons_self e rest, s, t, h2⟩
      · obtain ⟨e2, he2, hrest2⟩ := hrest
        exact Or.inr ⟨e2, List.mem_cons_of_mem e he2, hrest2⟩

theorem mergeNodes_eq (fresh : Nat → String) (base newGraph : CausalGraphData) :
    mergeNodes fresh base newGraph
      = newGraph.nodes.foldl (processNode fresh)
          { nodes := base.nodes, idMap := [], counter := 0 } := rfl

theorem mergeGraphs_nodes (fresh : Nat → String) (base newGraph : CausalGraphData) :
    (mergeGraphs fresh base newGraph).nodes = (mergeNodes fresh base newGraph).nodes := rfl

theorem mergeGraphs_edges (fresh : Nat → String) (base newGraph : CausalGraphData) :
    (mergeGraphs fresh base newGraph).edges
      = newGraph.edges.foldl (processEdge (mergeNodes fresh base newGraph).idMap)
          base.edges := rfl

/-- C10: `mergeGraphs` invariant preservation. The result keeps every node
and edge of `base`; a `newGraph` node whose label matches a base node
case-insensitively is mapped (in the id map) to a matching base node's id
instead of being added, and every node the merge does add matches no base
label; every surviving non-base edge is the remap of a `newGraph` edge both
of whose endpoint ids occur among `newGraph`'s nodes (edges with a dangling
endpoint are dropped); and if every `base` edge references ids of `base`
nodes, every result edge references ids of result nodes. The id-uniqueness
hypothesis on `newGraph` is the snapshot contract of the data model. -/
theorem mergeGraphs_spec (fresh : Nat → String) (base newGraph : CausalGraphData)
    (hnodup : (newGraph.nodes.map (fun n => n.id)).Nodup)
    (hclosed : ∀ e ∈ base.edges, (∃ b ∈ base.nodes, b.id = e.source)
        ∧ ∃ b ∈ base.nodes, b.id = e.target) :
    (∀ n ∈ base.nodes, n ∈ (mergeGraphs fresh base newGraph).nodes)
      ∧ (∀ e ∈ base.edges, e ∈ (mergeGraphs fresh base newGraph).edges)
      ∧ (∀ n ∈ newGraph.nodes, (∃ b ∈ base.nodes, labelMatches b.label n.label) →
          ∃ r ∈ base.nodes, labelMatches r.label n.label
            ∧ mapGet (mergeNodes fresh base newGraph).idMap n.id = some r.id)
      ∧ (∀ r ∈ (mergeGraphs fresh base newGraph).nodes,
          r ∈ base.nodes ∨ ∀ b ∈ base.nodes, ¬ labelMatches b.label r.label)
      ∧ (∀ x ∈ (mergeGraphs fresh base newGraph).edges, x ∈ base.edges
          ∨ ∃ e ∈ newGraph.edges,
              (∃ m ∈ newGraph.nodes, m.id = e.source)
              ∧ (∃ m ∈ newGraph.nodes, m.id = e.target)
              ∧ ∃ s t : String,
                  mapGet (mergeNodes fresh base newGraph).idMap e.source = some s
                  ∧ mapGet (mergeNodes fresh base newGraph).idMap e.target = some t
                  ∧ x = { e with source := s, target := t })
      ∧ (∀ x ∈ (mergeGraphs fresh base newGraph).edges,
          (∃ r ∈ (mergeGraphs fresh base newGraph).nodes, r.id = x.source)
            ∧ ∃ r ∈ (mergeGraphs fresh base newGraph).nodes, r.id = x.target) := by
  obtain ⟨suf, hsuf⟩ := foldl_processNode_nodes_prefix fresh newGraph.nodes
    { nodes := base.nodes, idMap := [], counter := 0 }
  have hsuf2 : (mergeNodes fresh base newGraph).nodes = base.nodes ++ suf := by
    rw [mergeNodes_eq]
    exact hsuf
  have hgm : goodMap (mergeNodes fresh base newGraph) := by
    rw [mergeNodes_eq]
    apply foldl_processNode_goodMap
    intro k v h
    exact Option.noConfusion h
  have hkeys : ∀ k s : String,
      mapGet (mergeNodes fresh base newGraph).idMap k = some s →
      ∃ m ∈ newGraph.nodes, m.id = k := by
    intro k s h
    rw [mergeNodes_eq] at h
    rcases foldl_processNode_idMap_keys fresh newGraph.nodes
        { nodes := base.nodes, idMap := [], counter := 0 } k (by rw [h]; simp)
      with h3 | h4
    · exact h3
    · exact absurd rfl h4
  refine ⟨?_, ?_, ?_, ?_, ?_, ?_⟩
  · intro n hn
    rw [mergeGraphs_nodes, hsuf2]
    exact List.mem_append_left _ hn
  · intro e he
    rw [mergeGraphs_edges]
    exact foldl_processEdge_sub _ _ _ _ he
  · intro n hn hb
    rw [mergeNodes_eq]
    exact foldl_processNode_label_match fresh base.nodes newGraph.nodes
      { nodes := base.nodes, idMap := [], counter := 0 } n hn hnodup
      ⟨[], by simp⟩ hb
  · intro r hr
    rw [mergeGraphs_nodes, mergeNodes_eq] at hr
    exact foldl_processNode_new_nodes fresh base.nodes newGraph.nodes
      { nodes := base.nodes, idMap := [], counter := 0 }
      ⟨[], by simp⟩ (fun r2 hr2 => Or.inl hr2) r hr
  · intro x hx
    rw [mergeGraphs_edges] at hx
    rcases foldl_processEdge_char _ _ _ _ hx with h1 | ⟨e, he, s, t, hs, ht, hxe⟩
    · exact Or.inl h1
    · exact Or.inr ⟨e, he, hkeys e.source s hs, hkeys e.target t ht,
        s, t, hs, ht, hxe⟩
  · intro x hx
    rw [mergeGraphs_edges] at hx
    rcases foldl_processEdge_char _ _ _ _ hx with h1 | ⟨e, he, s, t, hs, ht, hxe⟩
    · obtain ⟨⟨b1, hb1, hb1id⟩, ⟨b2, hb2, hb2id⟩⟩ := hclosed x h1
      constructor
      · exact ⟨b1, by rw [mergeGraphs_nodes, hsuf2]; exact List.mem_append_left _ hb1, hb1id⟩
      · exact ⟨b2, by rw [mergeGraphs_nodes, hsuf2]; exact List.mem_append_left _ hb2, hb2id⟩
    · obtain ⟨r1, hr1, hr1id⟩ := hgm e.source s hs
      obtain ⟨r2, hr2, hr2id⟩ := hgm e.target t ht
      subst hxe
      constructor
      · exact ⟨r1, by rw [mergeGraphs_nodes]; exact hr1, hr1id⟩
      · exact ⟨r2, by rw [mergeGraphs_nodes]; exact hr2, hr2id⟩

/-- A concrete base graph for instantiating C10. -/
def mergeBase : CausalGraphData :=
  { nodes := [{ id := "a", label := "Alpha", type := "variable" }]
    edges := [{ source := "a", target := "a", relationship := "positive" }] }

/-- A concrete incoming graph for instantiating C10: one node matching
`Alpha` case-insensitively, one new node, one valid edge and one edge with a
dangling target. -/
def mergeNew : CausalGraphData :=
  { nodes := [{ id := "x", label := "alpha", type := "variable" },
              { id := "y", label := "Beta", type := "outcome" }]
    edges := [{ source := "x", target := "y", relationship := "positive" },
              { source := "x", target := "z", relationship := "negative" }] }

/-- A concrete fresh-id supply for instantiating C10. -/
def mergeFresh : Nat → String := fun k => "m" ++ toString k

theorem mergeGraphs_spec_witness :
    (({ id := "a", label := "Alpha", type := "variable" } : CausalNode)
        ∈ (mergeGraphs mergeFresh mergeBase mergeNew).nodes)
      ∧ (({ source := "a", target := "a", relationship := "positive" } : CausalEdge)
        ∈ (mergeGraphs mergeFresh mergeBase mergeNew).edges)
      ∧ ∃ r ∈ mergeBase.nodes, labelMatches r.label "alpha"
          ∧ mapGet (mergeNodes mergeFresh mergeBase mergeNew).idMap "x" = some r.id := by
  have h := mergeGraphs_spec mergeFresh mergeBase mergeNew (by decide) (by decide)
  refine ⟨h.1 _ (by decide), h.2.1 _ (by decide), ?_⟩
  exact h.2.2.1 { id := "x", label := "alpha", type := "variable" } (by decide)
    ⟨{ id := "a", label := "Alpha", type := "variable" }, by decide, by decide⟩

end ProofSmith
